import Mathlib

/-!
Verification of the vecno-cpu-miner proof-of-work core.

This file shallowly embeds the Rust sources `src/target.rs`, `src/pow.rs`,
`src/pow/hasher.rs` and `src/vecnod_messages.rs`:
machine integers become `Nat` with explicit `% 2^w` where overflow matters,
byte buffers become `List Nat` (each entry one byte), hex strings become the
`List Nat` of their ASCII codes, and fallible code (including `unwrap`/`expect`
panics and out-of-range slice indexing) returns `Except`.
External cryptographic primitives (blake3, SHA3-256) and the consensus-defined
memory-hard finalizer are modelled as abstract function parameters bundled in
`Prims`, since their internals do not decide any property proved here.
-/

namespace Vecno

/-- Little-endian interpretation of a byte list: `u32::from_le_bytes` /
`u64::from_le_bytes` over however many bytes are supplied. -/
def leBytesToNat : List Nat → Nat
  | [] => 0
  | b :: rest => b + 256 * leBytesToNat rest

/-- Little-endian encoding: `n.to_le_bytes()` for a `k`-byte integer: the `k` little-endian bytes of
`n % 2^(8*k)`. -/
def natToLe : Nat → Nat → List Nat
  | 0, _ => []
  | k + 1, n => n % 256 :: natToLe k (n / 256)

/-! ## Hex decoding (`decode_to_slice` in `src/pow.rs`) -/

/-- The error type `FromHexError` of `src/pow.rs`; characters are carried as
their byte values. -/
inductive FromHexError where
  | oddLength : FromHexError
  | invalidStringLength : FromHexError
  | invalidHexCharacter (c : Nat) (index : Nat) : FromHexError
deriving DecidableEq, Repr

/-- The nested `val` function of `decode_to_slice`: the value of one hex digit
byte, or an `InvalidHexCharacter` error carrying the byte and its index. -/
def hexVal (c : Nat) (idx : Nat) : Except FromHexError Nat :=
  if 65 ≤ c ∧ c ≤ 70 then .ok (c - 65 + 10)
  else if 97 ≤ c ∧ c ≤ 102 then .ok (c - 97 + 10)
  else if 48 ≤ c ∧ c ≤ 57 then .ok (c - 48)
  else .error (.invalidHexCharacter c idx)

/-- The decoding loop of `decode_to_slice`: each output byte is
`val(data[2i], 2i) << 4 | val(data[2i+1], 2i+1)`.  `idx` is the index of the
first character of the remaining data. -/
def decodePairs : List Nat → Nat → Except FromHexError (List Nat)
  | [], _ => .ok []
  | [_], _ => .ok []
  | c1 :: c2 :: rest, idx => do
    let h ← hexVal c1 idx
    let l ← hexVal c2 (idx + 1)
    let tail ← decodePairs rest (idx + 2)
    .ok ((h <<< 4 ||| l) :: tail)

/-- Embedding of `decode_to_slice(data, out)` from `src/pow.rs`, with the output buffer
represented by its length: odd input length and length mismatch with the
output buffer are rejected before any digit is examined. -/
def decodeToSlice (data : List Nat) (outLen : Nat) : Except FromHexError (List Nat) :=
  if data.length % 2 ≠ 0 then .error .oddLength
  else if data.length / 2 ≠ outLen then .error .invalidStringLength
  else decodePairs data 0

/-! ## Uint256 (`src/target.rs`) -/

/-- The type `Uint256`: four little-endian 64-bit words (`pub struct Uint256(pub [u64; 4])`),
each word represented by a `Nat` that the well-formedness predicate bounds
by `2^64`. -/
structure Uint256 where
  w0 : Nat
  w1 : Nat
  w2 : Nat
  w3 : Nat
deriving DecidableEq, Repr

/-- All four words fit in 64 bits (automatic for the Rust `u64` words). -/
def Uint256.Wf (a : Uint256) : Prop :=
  a.w0 < 2 ^ 64 ∧ a.w1 < 2 ^ 64 ∧ a.w2 < 2 ^ 64 ∧ a.w3 < 2 ^ 64

instance (a : Uint256) : Decidable a.Wf := by
  unfold Uint256.Wf; infer_instance

/-- The 256-bit numeric value denoted by the four little-endian words. -/
def Uint256.val (a : Uint256) : Nat :=
  a.w0 + a.w1 * 2 ^ 64 + a.w2 * 2 ^ 128 + a.w3 * 2 ^ 192

/-- The value `Uint256::default()`, the all-zero value. -/
def Uint256.zero : Uint256 := ⟨0, 0, 0, 0⟩

/-- Embedding of `Uint256::from_u64`. -/
def Uint256.fromU64 (init : Nat) : Uint256 := ⟨init, 0, 0, 0⟩

/-- Word lookup `self.0[i]` for `i < 4` (out-of-range indices unused). -/
def Uint256.get (a : Uint256) : Nat → Nat
  | 0 => a.w0
  | 1 => a.w1
  | 2 => a.w2
  | _ => a.w3

/-- A `u64` shifted left within 64 bits: `w << b` truncating high bits. -/
def shlWord (w b : Nat) : Nat := (w * 2 ^ b) % 2 ^ 64

/-- Embedding of `impl Shl<usize> for Uint256`: closed form of the source loop.  Word `j`
of the result receives `original[j - word_shift] << bit_shift` when
`j ≥ word_shift` plus the carry `original[j - word_shift - 1] >> (64 - bit_shift)`
when `bit_shift > 0` and `j ≥ word_shift + 1`; the two parts occupy disjoint
bit ranges so the source `+=` never overflows. -/
def Uint256.shl (a : Uint256) (shift : Nat) : Uint256 :=
  let ws := shift / 64
  let bs := shift % 64
  let ret : Nat → Nat := fun j =>
    (if ws ≤ j then shlWord (a.get (j - ws)) bs else 0) +
    (if 0 < bs ∧ ws + 1 ≤ j then a.get (j - ws - 1) / 2 ^ (64 - bs) else 0)
  ⟨ret 0, ret 1, ret 2, ret 3⟩

/-- One word of `impl Add for Uint256`: result word
`sum = a.wrapping_add(b).wrapping_add(carry)` and the next carry flag
`(sum < a || (sum == a && carry > 0)) as u64`. -/
def addWord (a b c : Nat) : Nat × Nat :=
  let sum := (a + b + c) % 2 ^ 64
  (sum, if sum < a ∨ (sum = a ∧ 0 < c) then 1 else 0)

/-- Embedding of `impl Add for Uint256`: ripple-carry addition over the four words. -/
def Uint256.add (a b : Uint256) : Uint256 :=
  let p0 := addWord a.w0 b.w0 0
  let p1 := addWord a.w1 b.w1 p0.2
  let p2 := addWord a.w2 b.w2 p1.2
  let p3 := addWord a.w3 b.w3 p2.2
  ⟨p0.1, p1.1, p2.1, p3.1⟩

/-- Embedding of `impl Ord for Uint256`: `Iterator::cmp(self.0.iter().rev(), other.0.iter().rev())`,
i.e. lexicographic comparison of the words most-significant-first. -/
def Uint256.cmp (a b : Uint256) : Ordering :=
  (compare a.w3 b.w3).then
    ((compare a.w2 b.w2).then
      ((compare a.w1 b.w1).then (compare a.w0 b.w0)))

/-- The derived `<=` of `PartialOrd`/`Ord`: `cmp` does not return `Greater`. -/
def Uint256.leB (a b : Uint256) : Bool := a.cmp b ≠ Ordering.gt

/-- Embedding of `u256_from_compact_target(bits)` from `src/target.rs`.  `bits >> 24` is
`bits / 2^24` and `bits & 0xFFFFFF` is `bits % 2^24` for a `u32`. -/
def u256FromCompactTarget (bits : Nat) : Uint256 :=
  let unshiftedExpt := bits / 2 ^ 24
  let me :=
    if unshiftedExpt ≤ 3 then
      ((bits % 2 ^ 24) / 2 ^ (8 * (3 - unshiftedExpt)), 0)
    else
      (bits % 2 ^ 24, 8 * (unshiftedExpt - 3))
  if me.1 > 0x7FFFFF then Uint256.zero
  else (Uint256.fromU64 me.1).shl me.2

/-! ## Block header and serialization (`src/pow.rs`) -/

/-- The header type `RpcBlockHeader` (proto-generated, consumed read-only): hex-string fields
are the `List Nat` of their ASCII bytes; `parents` is the list of parent
levels, each level the list of its parent-hash hex strings. -/
structure RpcBlockHeader where
  version : Nat
  parents : List (List (List Nat))
  hash_merkle_root : List Nat
  accepted_id_merkle_root : List Nat
  utxo_commitment : List Nat
  timestamp : Nat
  bits : Nat
  nonce : Nat
  daa_score : Nat
  blue_score : Nat
  blue_work : List Nat
  pruning_point : List Nat
deriving DecidableEq, Repr

/-- The block type `RpcBlock`: an optional header (the only part this core reads). -/
structure RpcBlock where
  header : Option RpcBlockHeader
deriving DecidableEq, Repr

/-- Failure of `serialize_header`: a `decode_to_slice` error raised through
`unwrap`, the `version.try_into().unwrap()` panic for versions not fitting
in 16 bits, or the out-of-range panic of the slice `hash[..blue_work_len]`
when the blue-work byte count exceeds the 32-byte scratch buffer. -/
inductive SerializeError where
  | hexError (e : FromHexError) : SerializeError
  | versionOverflow : SerializeError
  | indexOutOfRange : SerializeError
deriving DecidableEq, Repr

/-- Decode one fixed 32-byte hex field. -/
def decode32 (s : List Nat) : Except SerializeError (List Nat) :=
  (decodeToSlice s 32).mapError .hexError

/-- The inner parent-hash loop of `serialize_header`: each parent hash is
hex-decoded to 32 raw bytes and fed to the hasher. -/
def serializeParentHashes : List (List Nat) → Except SerializeError (List Nat)
  | [] => .ok []
  | h :: rest => do
    let bytes ← decode32 h
    let tail ← serializeParentHashes rest
    .ok (bytes ++ tail)

/-- The outer parent-level loop of `serialize_header`: per level its
parent-hash count as 8 bytes LE, then the decoded hashes. -/
def serializeParents : List (List (List Nat)) → Except SerializeError (List Nat)
  | [] => .ok []
  | level :: rest => do
    let hs ← serializeParentHashes level
    let tail ← serializeParents rest
    .ok (natToLe 8 level.length ++ hs ++ tail)

/-- The blue-work part of `serialize_header`:
`blue_work_len = (len + 1) / 2`; an odd-length hex string is decoded with a
`'0'` (byte 48) prepended; the decode targets the slice
`hash[..blue_work_len]` of the 32-byte scratch buffer, which panics when
`blue_work_len > 32`; the emitted bytes are the count as 8 bytes LE followed
by the decoded bytes. -/
def serializeBlueWork (bw : List Nat) : Except SerializeError (List Nat) :=
  let len := (bw.length + 1) / 2
  if 32 < len then .error .indexOutOfRange
  else do
    let bytes ←
      (decodeToSlice (if bw.length % 2 = 0 then bw else 48 :: bw) len).mapError
        SerializeError.hexError
    .ok (natToLe 8 len ++ bytes)

/-- Embedding of `serialize_header(hasher, header, for_pre_pow)` from `src/pow.rs`, with the
hasher's update sequence made explicit as the concatenated byte stream:
version (2 bytes LE), parent-level count (8 LE), per level its count (8 LE)
and each decoded 32-byte parent hash, the three 32-byte roots/commitment,
then timestamp (8 LE), bits (4 LE), nonce (8 LE), DAA score (8 LE),
blue score (8 LE), the length-prefixed blue work, and the 32-byte pruning
point.  `for_pre_pow` forces nonce and timestamp to 0. -/
def serializeHeader (header : RpcBlockHeader) (forPrePow : Bool) :
    Except SerializeError (List Nat) :=
  let nt := if forPrePow then (0, 0) else (header.nonce, header.timestamp)
  if 2 ^ 16 ≤ header.version then .error .versionOverflow
  else do
    let parentsBytes ← serializeParents header.parents
    let hmr ← decode32 header.hash_merkle_root
    let aimr ← decode32 header.accepted_id_merkle_root
    let utxo ← decode32 header.utxo_commitment
    let bw ← serializeBlueWork header.blue_work
    let pp ← decode32 header.pruning_point
    .ok (natToLe 2 header.version ++ natToLe 8 header.parents.length ++
      parentsBytes ++ hmr ++ aimr ++ utxo ++
      natToLe 8 nt.2 ++ natToLe 4 header.bits ++ natToLe 8 nt.1 ++
      natToLe 8 header.daa_score ++ natToLe 8 header.blue_score ++
      bw ++ pp)

/-! ## Abstract cryptographic primitives

blake3 and SHA3-256 come from external crates; `mem_hash` lives in
`src/pow/mem_hash.rs`, which is not part of the analyzed sources. -/

/-- The external hash primitives used by the PoW pipeline, as abstract
functions from input bytes to output bytes.

* `sha3` — SHA3-256 digest (32 bytes) of its input, as used by `sha3_hash`
  and `calculate_rounds`.
* `blake3` — `blake3::hash` (32 bytes), as used by `blake3_hash`.
* `blake3Xof` — the first 32 bytes of blake3's extendable output over the
  input, as used by `PowHasher::finalize_with_nonce`; blake3's incremental
  `update` calls are equivalent to hashing the concatenation.
* `headerHash` — the keyed blake3 hash (key = the `BlockHash` domain
  constant) of `HeaderHasher`, 32 bytes out.
* `memHash` — Modelled from the spec: the memory-hard finalizer `mem_hash`
  of `src/pow/mem_hash.rs` is missing from the analyzed sources; per the
  spec it is a pure function of
  `(mixed_hash, timestamp, nonce, merkle_root, target)` with a fixed
  256-bit (32-byte) output, so it is kept abstract here. -/
structure Prims where
  sha3 : List Nat → List Nat
  blake3 : List Nat → List Nat
  blake3Xof : List Nat → List Nat
  headerHash : List Nat → List Nat
  memHash : List Nat → Nat → Nat → List Nat → Uint256 → List Nat

/-- Well-formedness of the primitives: 32-byte outputs whose entries are
bytes (automatic for the Rust types). -/
def BytesWf (l : List Nat) : Prop := l.length = 32 ∧ ∀ b ∈ l, b < 256

def Prims.Wf (p : Prims) : Prop :=
  (∀ x, BytesWf (p.sha3 x)) ∧ (∀ x, BytesWf (p.blake3 x)) ∧
  (∀ x, BytesWf (p.blake3Xof x)) ∧ (∀ x, BytesWf (p.headerHash x)) ∧
  (∀ x t n mr tg, BytesWf (p.memHash x t n mr tg))

/-- Embedding of `Uint256::from_le_bytes`: words from the exact 8-byte chunks of the
input (`chunks_exact(8)` drops a trailing incomplete chunk, and `zip`
leaves missing words zero). -/
def Uint256.fromLeBytes (bytes : List Nat) : Uint256 :=
  let word := fun i =>
    if 8 * i + 8 ≤ bytes.length then leBytesToNat ((bytes.drop (8 * i)).take 8) else 0
  ⟨word 0, word 1, word 2, word 3⟩

/-! ## The PoW pipeline (`src/pow.rs`) -/

/-- Embedding of `calculate_rounds(pre_pow_hash, timestamp)`: SHA3-256 of
`pre_pow_hash ∥ timestamp.to_le_bytes()`, first 4 bytes read little-endian,
`% 4 + 1`. -/
def calculateRounds (p : Prims) (prePowHash : List Nat) (timestamp : Nat) : Nat :=
  let hash := p.sha3 (prePowHash ++ natToLe 8 timestamp)
  leBytesToNat (hash.take 4) % 4 + 1

/-- Embedding of `bit_manipulations`: in each 4-byte chunk, XOR byte 0 with byte 1 in
place of byte 0 and byte 2 with byte 3 in place of byte 2. -/
def bitManipulations : List Nat → List Nat
  | a :: b :: c :: d :: rest => (a ^^^ b) :: b :: (c ^^^ d) :: d :: bitManipulations rest
  | other => other

/-- Embedding of `byte_mixing`: byte-wise XOR of the two 32-byte inputs. -/
def byteMixing (sha3Hash b3Hash : List Nat) : List Nat :=
  List.zipWith (· ^^^ ·) sha3Hash b3Hash

/-- The mining state `State` of `src/pow.rs`.  The seeded `PowHash`
accumulator is represented by its absorbed byte sequence `hasherSeed`
(`pre_pow_hash ∥ timestamp LE ∥ 32 zero bytes`); `target` is the decoded
compact target, `prePowHash`/`timestamp`/`merkleRoot` the cached
nonce-independent material. -/
structure State where
  id : Nat
  nonce : Nat
  target : Uint256
  block : RpcBlock
  hasherSeed : List Nat
  prePowHash : List Nat
  timestamp : Nat
  merkleRoot : List Nat

/-- Failure of `State::new`: missing header, a serialization panic, or a
merkle-root decode error propagated as `Error`. -/
inductive StateError where
  | missingHeader : StateError
  | serializeFailed (e : SerializeError) : StateError
  | merkleDecode (e : FromHexError) : StateError
deriving DecidableEq, Repr

/-- Embedding of `State::new(id, block)`: requires a header; computes the target from the
compact bits, the pre-PoW hash from the header serialized with
`for_pre_pow = true`, seeds the `PowHash` accumulator, and decodes the
merkle root; the nonce starts at 0. -/
def State.new (p : Prims) (id : Nat) (block : RpcBlock) : Except StateError State :=
  match block.header with
  | none => .error .missingHeader
  | some header =>
    let timestamp := header.timestamp
    let target := u256FromCompactTarget header.bits
    match serializeHeader header true with
    | .error e => .error (.serializeFailed e)
    | .ok stream =>
      let prePowHash := p.headerHash stream
      let hasherSeed := prePowHash ++ natToLe 8 timestamp ++ List.replicate 32 0
      match decodeToSlice header.hash_merkle_root 32 with
      | .error e => .error (.merkleDecode e)
      | .ok merkleRoot =>
        .ok { id, nonce := 0, target, block, hasherSeed, prePowHash, timestamp,
              merkleRoot }

/-- The round count computed inside `calculate_pow` for one nonce trial:
the nonce argument is ignored because the source derives the count from
`self.pre_pow_hash` and `self.timestamp` only. -/
def powRoundsUsed (p : Prims) (s : State) (_nonce : Nat) : Nat :=
  calculateRounds p s.prePowHash s.timestamp

/-- Embedding of `State::calculate_pow(nonce)`: `finalize_with_nonce` absorbs the nonce
after the seeded prefix and squeezes 32 bytes; the blake3 chain and the
SHA3 chain each run the derived round count with `bit_manipulations` after
each hash; the chains are combined by `byte_mixing` and passed with
timestamp, nonce, merkle root and target to the memory-hard finalizer,
whose 32-byte output is read as a little-endian `Uint256`. -/
def State.calculatePow (p : Prims) (s : State) (nonce : Nat) : Uint256 :=
  let hashBytes := p.blake3Xof (s.hasherSeed ++ natToLe 8 nonce)
  let rounds := powRoundsUsed p s nonce
  let chainA := (fun h => bitManipulations (p.blake3 h))^[rounds] hashBytes
  let b3Hash := chainA
  let chainB := (fun h => bitManipulations (p.sha3 h))^[rounds] chainA
  let mixed := byteMixing chainB b3Hash
  Uint256.fromLeBytes (p.memHash mixed s.timestamp nonce s.merkleRoot s.target)

/-- Embedding of `State::check_pow(nonce)`: `calculate_pow(nonce) <= self.target` under
the `Uint256` ordering; takes the state immutably. -/
def State.checkPow (p : Prims) (s : State) (nonce : Nat) : Bool :=
  (s.calculatePow p nonce).leB s.target

/-- Embedding of `State::generate_block_if_pow()`: when `check_pow(self.nonce)` holds,
clone the block, write `self.nonce` into the cloned header (`expect` panics
if the header is absent) and return it.  The method takes `&mut self` but
assigns no field, so the embedding returns the unchanged state alongside
the result. -/
def State.generateBlockIfPow (p : Prims) (s : State) :
    Except String (Option RpcBlock) × State :=
  (if s.checkPow p s.nonce then
      match s.block.header with
      | some h => .ok (some { s.block with header := some { h with nonce := s.nonce } })
      | none => .error "Header exists on creation"
    else .ok none, s)

/-! ## Auxiliary definitions: spec-side serializers, predicates, samples -/

deriving instance DecidableEq for Except

/-- Returns `true` on `.ok` and `false` on `.error`: "the serialization succeeds". -/
def isOkB {ε α : Type} : Except ε α → Bool
  | .ok _ => true
  | .error _ => false

/-- The byte is an ASCII hex digit (`A`–`F`, `a`–`f`, or `0`–`9`), i.e. the
`val` helper of `decode_to_slice` accepts it. -/
def IsHexDigit (c : Nat) : Prop :=
  (65 ≤ c ∧ c ≤ 70) ∨ (97 ≤ c ∧ c ≤ 102) ∨ (48 ≤ c ∧ c ≤ 57)

instance (c : Nat) : Decidable (IsHexDigit c) := by
  unfold IsHexDigit; infer_instance

/-- One parent level as the spec describes it: its parent-hash count as
8 bytes LE, then each parent hash decoded to 32 raw bytes. -/
def specParentLevel (level : List (List Nat)) : Except SerializeError (List Nat) := do
  let hashes ← level.mapM decode32
  .ok (natToLe 8 level.length ++ hashes.flatten)

/-- The parent-levels section as the spec describes it. -/
def specParents (parents : List (List (List Nat))) :
    Except SerializeError (List Nat) := do
  let levels ← parents.mapM specParentLevel
  .ok levels.flatten

/-- The header serialization in the exact field order asserted by the claim:
version, parent-level count, parent levels, the three 32-byte roots, then
timestamp and nonce (8 bytes LE each, zeroed for pre-PoW), then bits
(4 bytes LE), DAA score, blue score, the length-prefixed blue work, and the
pruning point. -/
def serializeHeaderClaimOrder (header : RpcBlockHeader) (forPrePow : Bool) :
    Except SerializeError (List Nat) :=
  let nt := if forPrePow then (0, 0) else (header.nonce, header.timestamp)
  if 2 ^ 16 ≤ header.version then .error .versionOverflow
  else do
    let parentsBytes ← specParents header.parents
    let hmr ← decode32 header.hash_merkle_root
    let aimr ← decode32 header.accepted_id_merkle_root
    let utxo ← decode32 header.utxo_commitment
    let bw ← serializeBlueWork header.blue_work
    let pp ← decode32 header.pruning_point
    .ok (natToLe 2 header.version ++ natToLe 8 header.parents.length ++
      parentsBytes ++ hmr ++ aimr ++ utxo ++
      natToLe 8 nt.2 ++ natToLe 8 nt.1 ++ natToLe 4 header.bits ++
      natToLe 8 header.daa_score ++ natToLe 8 header.blue_score ++
      bw ++ pp)

/-- The header serialization in the amended field order (the order the code
actually writes): as `serializeHeaderClaimOrder` but with the compact target
bits between the timestamp and the nonce. -/
def serializeHeaderFieldOrder (header : RpcBlockHeader) (forPrePow : Bool) :
    Except SerializeError (List Nat) :=
  let nt := if forPrePow then (0, 0) else (header.nonce, header.timestamp)
  if 2 ^ 16 ≤ header.version then .error .versionOverflow
  else do
    let parentsBytes ← specParents header.parents
    let hmr ← decode32 header.hash_merkle_root
    let aimr ← decode32 header.accepted_id_merkle_root
    let utxo ← decode32 header.utxo_commitment
    let bw ← serializeBlueWork header.blue_work
    let pp ← decode32 header.pruning_point
    .ok (natToLe 2 header.version ++ natToLe 8 header.parents.length ++
      parentsBytes ++ hmr ++ aimr ++ utxo ++
      natToLe 8 nt.2 ++ natToLe 4 header.bits ++ natToLe 8 nt.1 ++
      natToLe 8 header.daa_score ++ natToLe 8 header.blue_score ++
      bw ++ pp)

/-- Trivial concrete instantiation of the abstract hash primitives, used
only to evaluate the theorems at concrete inputs. -/
def constPrims : Prims where
  sha3 := fun _ => List.replicate 32 0
  blake3 := fun _ => List.replicate 32 0
  blake3Xof := fun _ => List.replicate 32 0
  headerHash := fun _ => List.replicate 32 0
  memHash := fun _ _ _ _ _ => List.replicate 32 0

/-- A concrete all-zero block header: 32-byte hash fields are the 64-char
hex string of zeros (ASCII 48), `blue_work` is the single digit `"0"`. -/
def sampleHeader : RpcBlockHeader where
  version := 1
  parents := [[List.replicate 64 48]]
  hash_merkle_root := List.replicate 64 48
  accepted_id_merkle_root := List.replicate 64 48
  utxo_commitment := List.replicate 64 48
  timestamp := 0
  bits := 0x207FFFFF
  nonce := 0
  daa_score := 0
  blue_score := 0
  blue_work := [48]
  pruning_point := List.replicate 64 48

/-- A concrete mining state over `sampleHeader`. -/
def sampleState : State where
  id := 0
  nonce := 0
  target := Uint256.zero
  block := { header := some sampleHeader }
  hasherSeed := List.replicate 72 0
  prePowHash := List.replicate 32 0
  timestamp := 0
  merkleRoot := List.replicate 32 0

/-! ## Theorems -/

theorem natToLe_length (k n : Nat) : (natToLe k n).length = k := by
  induction k generalizing n with
  | zero => rfl
  | succ k ih => simp [natToLe, ih]

theorem exceptBind_ok {ε α β : Type} (a : α) (f : α → Except ε β) :
    ((Except.ok a : Except ε α) >>= f) = f a := rfl

theorem exceptBind_error {ε α β : Type} (e : ε) (f : α → Except ε β) :
    ((Except.error e : Except ε α) >>= f) = Except.error e := rfl

theorem exceptMapError_ok {ε ε' α : Type} (f : ε → ε') (a : α) :
    (Except.ok a : Except ε α).mapError f = .ok a := rfl

theorem exceptMapError_error {ε ε' α : Type} (f : ε → ε') (e : ε) :
    (Except.error e : Except ε α).mapError f = .error (f e) := rfl

/-! The numeric powers of two used below, as literals for `omega`. -/

theorem pow64_eq : (2 : Nat) ^ 64 = 18446744073709551616 := by norm_num

theorem pow128_eq : (2 : Nat) ^ 128 = 340282366920938463463374607431768211456 := by
  norm_num

theorem pow192_eq :
    (2 : Nat) ^ 192 =
      6277101735386680763835789423207666416102355444464034512896 := by
  norm_num

theorem pow256_eq :
    (2 : Nat) ^ 256 =
      115792089237316195423570985008687907853269984665640564039457584007913129639936 := by
  norm_num

/-- The derived `<=` of the `Uint256` `Ord` instance agrees with the numeric
256-bit value whenever all words are in `u64` range. -/
theorem Uint256.leB_iff_val (a b : Uint256) (ha : a.Wf) (hb : b.Wf) :
    (a.leB b = true) ↔ a.val ≤ b.val := by
  obtain ⟨ha0, ha1, ha2, ha3⟩ := ha
  obtain ⟨hb0, hb1, hb2, hb3⟩ := hb
  rw [pow64_eq] at ha0 hb0 ha1 hb1 ha2 hb2 ha3 hb3
  simp only [Uint256.leB, Uint256.cmp, Uint256.val, ne_eq, decide_eq_true_eq]
  rcases lt_trichotomy a.w3 b.w3 with h3 | h3 | h3
  · simp only [compare_lt_iff_lt.mpr h3, Ordering.then, pow64_eq, pow128_eq, pow192_eq]
    constructor
    · intro _; omega
    · intro _ hc; cases hc
  · simp only [compare_eq_iff_eq.mpr h3, Ordering.then]
    rcases lt_trichotomy a.w2 b.w2 with h2 | h2 | h2
    · simp only [compare_lt_iff_lt.mpr h2, pow64_eq, pow128_eq, pow192_eq]
      constructor
      · intro _; omega
      · intro _ hc; cases hc
    · simp only [compare_eq_iff_eq.mpr h2, Ordering.then]
      rcases lt_trichotomy a.w1 b.w1 with h1 | h1 | h1
      · simp only [compare_lt_iff_lt.mpr h1, pow64_eq, pow128_eq, pow192_eq]
        constructor
        · intro _; omega
        · intro _ hc; cases hc
      · simp only [compare_eq_iff_eq.mpr h1, Ordering.then]
        rcases lt_trichotomy a.w0 b.w0 with h0 | h0 | h0
        · simp only [compare_lt_iff_lt.mpr h0, pow64_eq, pow128_eq, pow192_eq]
          constructor
          · intro _; omega
          · intro _ hc; cases hc
        · simp only [compare_eq_iff_eq.mpr h0, pow64_eq, pow128_eq, pow192_eq]
          constructor
          · intro _; omega
          · intro _ hc; cases hc
        · simp only [compare_gt_iff_gt.mpr h0, pow64_eq, pow128_eq, pow192_eq]
          constructor
          · intro hc; exact (hc (by trivial)).elim
          · intro hle hc; omega
      · simp only [compare_gt_iff_gt.mpr h1, pow64_eq, pow128_eq, pow192_eq]
        constructor
        · intro hc; exact (hc (by trivial)).elim
        · intro hle hc; omega
    · simp only [compare_gt_iff_gt.mpr h2, pow64_eq, pow128_eq, pow192_eq]
      constructor
      · intro hc; exact (hc (by trivial)).elim
      · intro hle hc; omega
  · simp only [compare_gt_iff_gt.mpr h3, Ordering.then, pow64_eq, pow128_eq, pow192_eq]
    constructor
    · intro hc; exact (hc (by trivial)).elim
    · intro hle hc; omega

/-- One adder step recombines exactly: `sum + 2^64 * carry = a + b + c`,
with the new carry again a flag. -/
theorem addWord_spec (a b c : Nat) (ha : a < 2 ^ 64) (hb : b < 2 ^ 64)
    (hc : c ≤ 1) :
    (addWord a b c).1 + 2 ^ 64 * (addWord a b c).2 = a + b + c ∧
      (addWord a b c).2 ≤ 1 ∧ (addWord a b c).1 < 2 ^ 64 := by
  simp only [addWord]
  rw [pow64_eq] at *
  split <;> omega

theorem pow23_eq : (2 : Nat) ^ 23 = 8388608 := by norm_num

theorem pow24_eq : (2 : Nat) ^ 24 = 16777216 := by norm_num

/-- C2 (counterexample): `bits = 0x01800000` has the top bit of its 24-bit
mantissa field set, yet `u256_from_compact_target` does not return the zero
value: the exponent byte is 1, so the mantissa is right-shifted to `0x80`
before the sign check, and the result is the `Uint256` value `0x80`. -/
theorem c2_counterexample :
    2 ^ 23 ≤ 0x01800000 % 2 ^ 24 ∧
      u256FromCompactTarget 0x01800000 ≠ Uint256.zero := by
  constructor
  · decide
  · decide

/-- C2 (amended): for every compact-target value whose exponent byte is at
least 3 and whose 24-bit mantissa field has its top (sign) bit set,
`u256_from_compact_target` returns the zero `Uint256`; for exponent bytes
0–2 the mantissa field is right-shifted by `8*(3-exponent)` bits before the
sign check, so the check applies to the shifted value instead. -/
theorem c2_sign_bit_decodes_to_zero (bits : Nat) (hexp : 3 ≤ bits / 2 ^ 24)
    (hm : 2 ^ 23 ≤ bits % 2 ^ 24) :
    u256FromCompactTarget bits = Uint256.zero := by
  rw [pow23_eq] at hm
  rw [pow24_eq] at hexp hm
  by_cases hc : bits / 2 ^ 24 ≤ 3
  · have h3 : bits / 2 ^ 24 = 3 := by rw [pow24_eq]; rw [pow24_eq] at hc; omega
    simp only [u256FromCompactTarget, h3, le_refl, if_true]
    rw [if_pos]
    have h0 : (8 : Nat) * (3 - 3) = 0 := by norm_num
    rw [h0, pow_zero, Nat.div_one, pow24_eq]
    omega
  · simp only [u256FromCompactTarget, if_neg hc]
    rw [if_pos]
    rw [pow24_eq]
    omega

/-- C2 (witness): `bits = 0x03800000` has exponent byte 3 and the mantissa
sign bit set, and decodes to the zero value. -/
theorem c2_witness :
    (3 ≤ 0x03800000 / 2 ^ 24 ∧ 2 ^ 23 ≤ 0x03800000 % 2 ^ 24) ∧
      u256FromCompactTarget 0x03800000 = Uint256.zero :=
  ⟨⟨by decide, by decide⟩,
    c2_sign_bit_decodes_to_zero 0x03800000 (by decide) (by decide)⟩

/-- C8: the `Ord` instance of `Uint256` (lexicographic over the four 64-bit
words, most-significant-first) agrees with the numeric 256-bit value:
`a <= b` holds if and only if the value of `a` is at most the value of `b`. -/
theorem c8_ord_agrees_with_value (a b : Uint256) (ha : a.Wf) (hb : b.Wf) :
    (a.leB b = true) ↔ a.val ≤ b.val :=
  Uint256.leB_iff_val a b ha hb

/-- C8 (witness): a concrete pair where the low word of the left value is
larger but the high word of the right value dominates. -/
theorem c8_ord_agrees_with_value_witness :
    (Uint256.mk 7 0 0 0).Wf ∧ (Uint256.mk 5 0 0 1).Wf ∧
      (((Uint256.mk 7 0 0 0).leB (Uint256.mk 5 0 0 1) = true) ↔
        (Uint256.mk 7 0 0 0).val ≤ (Uint256.mk 5 0 0 1).val) :=
  ⟨by decide, by decide,
    c8_ord_agrees_with_value (Uint256.mk 7 0 0 0) (Uint256.mk 5 0 0 1)
      (by decide) (by decide)⟩

/-- C9: `Uint256` addition is addition modulo `2^256`: the ripple carry is
propagated correctly across the four words and no overflow error exists. -/
theorem c9_add_is_mod_2_256 (a b : Uint256) (ha : a.Wf) (hb : b.Wf) :
    (a.add b).val = (a.val + b.val) % 2 ^ 256 := by
  obtain ⟨ha0, ha1, ha2, ha3⟩ := ha
  obtain ⟨hb0, hb1, hb2, hb3⟩ := hb
  have h0 := addWord_spec a.w0 b.w0 0 ha0 hb0 (by norm_num)
  have h1 := addWord_spec a.w1 b.w1 (addWord a.w0 b.w0 0).2 ha1 hb1 h0.2.1
  have h2 := addWord_spec a.w2 b.w2
    (addWord a.w1 b.w1 (addWord a.w0 b.w0 0).2).2 ha2 hb2 h1.2.1
  have h3 := addWord_spec a.w3 b.w3
    (addWord a.w2 b.w2 (addWord a.w1 b.w1 (addWord a.w0 b.w0 0).2).2).2
    ha3 hb3 h2.2.1
  obtain ⟨e0, c0, s0⟩ := h0
  obtain ⟨e1, c1, s1⟩ := h1
  obtain ⟨e2, c2, s2⟩ := h2
  obtain ⟨e3, c3, s3⟩ := h3
  simp only [Uint256.add, Uint256.val]
  rw [pow64_eq] at e0 e1 e2 e3 s0 s1 s2 s3 ha0 ha1 ha2 ha3 hb0 hb1 hb2 hb3
  rw [pow64_eq, pow128_eq, pow192_eq, pow256_eq]
  omega

/-- C9 (witness): adding 1 to the all-ones 256-bit value wraps to zero. -/
theorem c9_add_is_mod_2_256_witness :
    (Uint256.mk 18446744073709551615 18446744073709551615 18446744073709551615
        18446744073709551615).Wf ∧
      (Uint256.mk 1 0 0 0).Wf ∧
      ((Uint256.mk 18446744073709551615 18446744073709551615 18446744073709551615
          18446744073709551615).add (Uint256.mk 1 0 0 0)).val =
        ((Uint256.mk 18446744073709551615 18446744073709551615 18446744073709551615
            18446744073709551615).val + (Uint256.mk 1 0 0 0).val) % 2 ^ 256 :=
  ⟨by decide, by decide,
    c9_add_is_mod_2_256 _ _ (by decide) (by decide)⟩

/-! ## Supporting lemmas for the PoW pipeline claims -/

theorem leBytesToNat_lt (l : List Nat) (h : ∀ b ∈ l, b < 256) :
    leBytesToNat l < 256 ^ l.length := by
  induction l with
  | nil => simp [leBytesToNat]
  | cons b rest ih =>
    have hb : b < 256 := h b (by simp)
    have hr : leBytesToNat rest < 256 ^ rest.length :=
      ih fun x hx => h x (by simp [hx])
    simp only [leBytesToNat, List.length_cons, pow_succ]
    calc b + 256 * leBytesToNat rest
        ≤ 255 + 256 * (256 ^ rest.length - 1) := by
          have : leBytesToNat rest ≤ 256 ^ rest.length - 1 := by omega
          have h255 : b ≤ 255 := by omega
          exact Nat.add_le_add h255 (Nat.mul_le_mul_left 256 this)
      _ < 256 ^ rest.length * 256 := by
          have hpos : 1 ≤ 256 ^ rest.length := Nat.one_le_pow _ _ (by norm_num)
          omega

/-- A 32-byte output read as a little-endian `Uint256` is well-formed. -/
theorem Uint256.fromLeBytes_wf (bytes : List Nat) (h : ∀ b ∈ bytes, b < 256) :
    (Uint256.fromLeBytes bytes).Wf := by
  have key : ∀ i : Nat,
      (if 8 * i + 8 ≤ bytes.length then
          leBytesToNat ((bytes.drop (8 * i)).take 8)
        else 0) < 2 ^ 64 := by
    intro i
    split
    · have hb : ∀ b ∈ (bytes.drop (8 * i)).take 8, b < 256 := fun b hb =>
        h b (List.mem_of_mem_drop (List.mem_of_mem_take hb))
      calc leBytesToNat ((bytes.drop (8 * i)).take 8)
          < 256 ^ ((bytes.drop (8 * i)).take 8).length := leBytesToNat_lt _ hb
        _ ≤ 256 ^ 8 := Nat.pow_le_pow_right (by norm_num) (List.length_take_le _ _)
        _ = 2 ^ 64 := by norm_num
    · positivity
  exact ⟨key 0, key 1, key 2, key 3⟩

/-- C3: `check_pow(nonce)` is true exactly when the numeric 256-bit value of
`calculate_pow(nonce)` is at most the numeric value of the state's target;
`check_pow` takes the state by shared reference and returns only a boolean,
so no state field is modified. -/
theorem c3_check_pow_iff_calculate_pow_le_target (p : Prims) (s : State)
    (n : Nat) (hp : p.Wf) (ht : s.target.Wf) :
    State.checkPow p s n = true ↔
      (State.calculatePow p s n).val ≤ s.target.val := by
  have hwf : (State.calculatePow p s n).Wf := by
    simp only [State.calculatePow]
    exact Uint256.fromLeBytes_wf _ fun b hb => (hp.2.2.2.2 _ _ _ _ _).2 b hb
  exact Uint256.leB_iff_val _ _ hwf ht

theorem constPrims_wf : constPrims.Wf := by
  refine ⟨?_, ?_, ?_, ?_, ?_⟩ <;> intros <;>
    exact ⟨by simp [constPrims], fun b hb => by
      simp only [constPrims, List.mem_replicate] at hb; omega⟩

/-- C3 (witness): the claim evaluated at the trivial primitives and a
concrete state. -/
theorem c3_check_pow_iff_calculate_pow_le_target_witness :
    constPrims.Wf ∧ sampleState.target.Wf ∧
      (State.checkPow constPrims sampleState 0 = true ↔
        (State.calculatePow constPrims sampleState 0).val ≤
          sampleState.target.val) :=
  ⟨constPrims_wf, by decide,
    c3_check_pow_iff_calculate_pow_le_target constPrims sampleState 0
      constPrims_wf (by decide)⟩

/-- C4: `generate_block_if_pow` leaves every state field (including the
stored template) unmodified, returns the cloned template with the current
nonce written into its header exactly when `check_pow(self.nonce)` holds,
and returns nothing exactly when it does not. -/
theorem c4_generate_block_iff_check_pow (p : Prims) (s : State)
    (hd : RpcBlockHeader) (hh : s.block.header = some hd) :
    (s.generateBlockIfPow p).2 = s ∧
      ((s.generateBlockIfPow p).1 =
          .ok (some { s.block with header := some { hd with nonce := s.nonce } }) ↔
        s.checkPow p s.nonce = true) ∧
      ((s.generateBlockIfPow p).1 = .ok none ↔
        s.checkPow p s.nonce = false) := by
  unfold State.generateBlockIfPow
  refine ⟨rfl, ?_, ?_⟩
  · by_cases hc : s.checkPow p s.nonce
    · simp [hc, hh]
    · simp [hc, hh]
  · by_cases hc : s.checkPow p s.nonce
    · simp [hc, hh]
    · simp [hc, hh]

/-- C4 (witness): the claim evaluated at the trivial primitives and the
concrete sample state. -/
theorem c4_generate_block_iff_check_pow_witness :
    sampleState.block.header = some sampleHeader ∧
      ((sampleState.generateBlockIfPow constPrims).2 = sampleState ∧
        ((sampleState.generateBlockIfPow constPrims).1 =
            .ok (some { sampleState.block with
              header := some { sampleHeader with nonce := sampleState.nonce } }) ↔
          sampleState.checkPow constPrims sampleState.nonce = true) ∧
        ((sampleState.generateBlockIfPow constPrims).1 = .ok none ↔
          sampleState.checkPow constPrims sampleState.nonce = false)) :=
  ⟨rfl, c4_generate_block_iff_check_pow constPrims sampleState sampleHeader rfl⟩

/-- C5: the round count is
`(first 4 bytes of SHA3-256(pre_pow_hash ∥ timestamp LE), read LE) % 4 + 1`,
hence always in `{1, 2, 3, 4}`; and the round count used inside
`calculate_pow` is the same for any two nonces, because the nonce is never
an input to the derivation. -/
theorem c5_round_count (p : Prims) :
    (∀ pre ts, calculateRounds p pre ts =
        leBytesToNat ((p.sha3 (pre ++ natToLe 8 ts)).take 4) % 4 + 1 ∧
      1 ≤ calculateRounds p pre ts ∧ calculateRounds p pre ts ≤ 4) ∧
    (∀ (s : State) (n₁ n₂ : Nat),
      powRoundsUsed p s n₁ = powRoundsUsed p s n₂) := by
  constructor
  · intro pre ts
    refine ⟨rfl, ?_, ?_⟩ <;> simp only [calculateRounds] <;> omega
  · intro s n₁ n₂
    rfl

/-! ## Hex decoding lemmas -/

theorem hexVal_ok_of_hex (c idx : Nat) (h : IsHexDigit c) :
    ∃ v, hexVal c idx = .ok v := by
  unfold hexVal
  rcases h with h | h | h
  · rw [if_pos h]; exact ⟨_, rfl⟩
  · rw [if_neg (by omega), if_pos h]; exact ⟨_, rfl⟩
  · rw [if_neg (by omega), if_neg (by omega), if_pos h]; exact ⟨_, rfl⟩

theorem hexVal_err_of_not_hex (c idx : Nat) (h : ¬ IsHexDigit c) :
    hexVal c idx = .error (.invalidHexCharacter c idx) := by
  unfold IsHexDigit at h
  unfold hexVal
  rw [if_neg (by omega), if_neg (by omega), if_neg (by omega)]

theorem decodePairs_ok_of_hex :
    ∀ (data : List Nat) (idx : Nat), (∀ c ∈ data, IsHexDigit c) →
      ∃ bytes, decodePairs data idx = .ok bytes ∧
        bytes.length = data.length / 2
  | [], _, _ => ⟨[], rfl, rfl⟩
  | [_], _, _ => ⟨[], rfl, by norm_num⟩
  | c1 :: c2 :: rest, idx, h => by
    obtain ⟨v1, hv1⟩ := hexVal_ok_of_hex c1 idx (h c1 (by simp))
    obtain ⟨v2, hv2⟩ := hexVal_ok_of_hex c2 (idx + 1) (h c2 (by simp))
    obtain ⟨tail, htail, hlen⟩ :=
      decodePairs_ok_of_hex rest (idx + 2) fun c hc => h c (by simp [hc])
    refine ⟨(v1 <<< 4 ||| v2) :: tail, ?_, ?_⟩
    · simp only [decodePairs, hv1, hv2, htail, exceptBind_ok]
    · simp only [List.length_cons, hlen]; omega

theorem decodeToSlice_ok_of_hex (data : List Nat)
    (h : ∀ c ∈ data, IsHexDigit c) (heven : data.length % 2 = 0) :
    ∃ bytes, decodeToSlice data (data.length / 2) = .ok bytes ∧
      bytes.length = data.length / 2 := by
  obtain ⟨bytes, hok, hblen⟩ := decodePairs_ok_of_hex data 0 h
  refine ⟨bytes, ?_, hblen⟩
  unfold decodeToSlice
  rw [if_neg (by omega), if_neg (by omega)]
  exact hok

/-- C7: whenever the blue-work hex string consists of hex digits and is at
most 64 characters, its serialization succeeds and writes
`ceil(hex_len / 2)` as an 8-byte little-endian count followed by the bytes
decoded from the (zero-nibble-left-padded, when odd) hex string; in
particular `blue_work = "0"` serializes as count 1 followed by the single
byte `0x00`. -/
theorem c7_blue_work_length_prefixed :
    (∀ bw : List Nat, (∀ c ∈ bw, IsHexDigit c) → bw.length ≤ 64 →
      ∃ bytes,
        decodeToSlice (if bw.length % 2 = 0 then bw else 48 :: bw)
            ((bw.length + 1) / 2) = .ok bytes ∧
        bytes.length = (bw.length + 1) / 2 ∧
        serializeBlueWork bw = .ok (natToLe 8 ((bw.length + 1) / 2) ++ bytes)) ∧
    serializeBlueWork [48] = .ok (natToLe 8 1 ++ [0]) := by
  constructor
  · intro bw hhex hlen
    by_cases hpar : bw.length % 2 = 0
    · have hout : (bw.length + 1) / 2 = bw.length / 2 := by omega
      obtain ⟨bytes, hok, hblen⟩ := decodeToSlice_ok_of_hex bw hhex hpar
      rw [if_pos hpar, hout]
      refine ⟨bytes, hok, hblen, ?_⟩
      unfold serializeBlueWork
      rw [if_neg (by omega), hout, if_pos hpar, hok, exceptMapError_ok, exceptBind_ok]
    · have hdata : (48 :: bw).length % 2 = 0 := by
        simp only [List.length_cons]; omega
      have hout : (bw.length + 1) / 2 = (48 :: bw).length / 2 := by
        simp only [List.length_cons]
      have hhex' : ∀ c ∈ 48 :: bw, IsHexDigit c := by
        intro c hc
        rcases List.mem_cons.mp hc with hc | hc
        · subst hc; right; right; omega
        · exact hhex c hc
      obtain ⟨bytes, hok, hblen⟩ := decodeToSlice_ok_of_hex (48 :: bw) hhex' hdata
      rw [if_neg hpar, hout]
      refine ⟨bytes, hok, hblen, ?_⟩
      unfold serializeBlueWork
      rw [if_neg (by omega), if_neg hpar, hout, hok, exceptMapError_ok, exceptBind_ok]
  · decide

/-- C7 (witness): the universally quantified part evaluated at the
three-character blue-work string `"abc"`. -/
theorem c7_blue_work_length_prefixed_witness :
    (∀ c ∈ [97, 98, 99], IsHexDigit c) ∧ [97, 98, 99].length ≤ 64 ∧
      ∃ bytes,
        decodeToSlice (if [97, 98, 99].length % 2 = 0 then [97, 98, 99]
            else 48 :: [97, 98, 99]) (([97, 98, 99].length + 1) / 2) = .ok bytes ∧
        bytes.length = ([97, 98, 99].length + 1) / 2 ∧
        serializeBlueWork [97, 98, 99] =
          .ok (natToLe 8 (([97, 98, 99].length + 1) / 2) ++ bytes) :=
  ⟨by decide, by decide,
    c7_blue_work_length_prefixed.1 [97, 98, 99] (by decide) (by decide)⟩

theorem serializeBlueWork_err_of_long (bw : List Nat) (h : 64 < bw.length) :
    serializeBlueWork bw = .error .indexOutOfRange := by
  unfold serializeBlueWork
  rw [if_pos (by omega)]

/-- C10: header serialization reaches its failure branch for every header
whose blue-work hex string is longer than 64 characters, because the decoded
blue work must fit the fixed 32-byte scratch buffer; the "variable-width"
blue-work field is in fact bounded at 32 decoded bytes. -/
theorem c10_serialize_fails_on_long_blue_work (header : RpcBlockHeader)
    (forPrePow : Bool) (h : 64 < header.blue_work.length) :
    isOkB (serializeHeader header forPrePow) = false := by
  simp only [serializeHeader]
  by_cases hv : 2 ^ 16 ≤ header.version
  · rw [if_pos hv]; rfl
  · rw [if_neg hv]
    cases hp : serializeParents header.parents with
    | error e => rw [exceptBind_error]; rfl
    | ok parentsBytes =>
      rw [exceptBind_ok]
      cases h1 : decode32 header.hash_merkle_root with
      | error e => rw [exceptBind_error]; rfl
      | ok hmr =>
        rw [exceptBind_ok]
        cases h2 : decode32 header.accepted_id_merkle_root with
        | error e => rw [exceptBind_error]; rfl
        | ok aimr =>
          rw [exceptBind_ok]
          cases h3 : decode32 header.utxo_commitment with
          | error e => rw [exceptBind_error]; rfl
          | ok utxo =>
            rw [exceptBind_ok,
              serializeBlueWork_err_of_long header.blue_work h, exceptBind_error]
            rfl

/-- C10 (witness): a 65-character blue-work string makes serialization of an
otherwise valid header fail. -/
theorem c10_serialize_fails_on_long_blue_work_witness :
    64 < ({ sampleHeader with blue_work := List.replicate 65 48 } :
        RpcBlockHeader).blue_work.length ∧
      isOkB (serializeHeader
        { sampleHeader with blue_work := List.replicate 65 48 } true) = false :=
  ⟨by decide,
    c10_serialize_fails_on_long_blue_work
      { sampleHeader with blue_work := List.replicate 65 48 } true (by decide)⟩

/-! ## Error-propagation lemmas for C6 -/

theorem isOkB_of_bind_ok {ε α β : Type} (x : Except ε α) (f : α → Except ε β)
    (b : β) (h : (x >>= f) = .ok b) : ∃ a, x = .ok a ∧ f a = .ok b := by
  cases x with
  | error e => rw [exceptBind_error] at h; cases h
  | ok a => rw [exceptBind_ok] at h; exact ⟨a, rfl, h⟩

theorem decodePairs_err_at :
    ∀ (data : List Nat) (start i c : Nat),
      (∀ j, j < i → ∀ d, data[j]? = some d → IsHexDigit d) →
      data[i]? = some c → ¬ IsHexDigit c → data.length % 2 = 0 →
      decodePairs data start = .error (.invalidHexCharacter c (start + i))
  | [], _, i, c, _, hc, _, _ => by simp at hc
  | [_], _, _, _, _, _, _, heven => by simp at heven
  | c1 :: c2 :: rest, start, i, c, hprev, hc, hbad, heven => by
    match i with
    | 0 =>
      have h1 : c1 = c := by simpa using hc
      subst h1
      simp only [decodePairs, hexVal_err_of_not_hex c1 start hbad,
        exceptBind_error, Nat.add_zero]
    | 1 =>
      have h2 : c2 = c := by simpa using hc
      subst h2
      obtain ⟨v1, hv1⟩ := hexVal_ok_of_hex c1 start (hprev 0 (by omega) c1 (by simp))
      simp only [decodePairs, hv1, exceptBind_ok,
        hexVal_err_of_not_hex c2 (start + 1) hbad, exceptBind_error]
    | i + 2 =>
      obtain ⟨v1, hv1⟩ := hexVal_ok_of_hex c1 start (hprev 0 (by omega) c1 (by simp))
      obtain ⟨v2, hv2⟩ :=
        hexVal_ok_of_hex c2 (start + 1) (hprev 1 (by omega) c2 (by simp))
      have heven' : rest.length % 2 = 0 := by
        simp only [List.length_cons] at heven; omega
      have hrec := decodePairs_err_at rest (start + 2) i c
        (fun j hj d hd => hprev (j + 2) (by omega) d (by simpa using hd))
        (by simpa using hc) hbad heven'
      simp only [decodePairs, hv1, hv2, exceptBind_ok, hrec, exceptBind_error]
      have harith : start + 2 + i = start + (i + 2) := by omega
      rw [harith]

theorem decodeToSlice_err_at (data : List Nat) (outLen i c : Nat)
    (heven : data.length % 2 = 0) (hlen : data.length / 2 = outLen)
    (hprev : ∀ j, j < i → ∀ d, data[j]? = some d → IsHexDigit d)
    (hc : data[i]? = some c) (hbad : ¬ IsHexDigit c) :
    decodeToSlice data outLen = .error (.invalidHexCharacter c i) := by
  unfold decodeToSlice
  rw [if_neg (by omega), if_neg (by omega)]
  simpa using decodePairs_err_at data 0 i c hprev hc hbad heven

theorem serializeParentHashes_ok :
    ∀ (level : List (List Nat)) (v : List Nat),
      serializeParentHashes level = .ok v →
      ∀ hs ∈ level, isOkB (decode32 hs) = true
  | [], _, _ => by intro hs hmem; simp at hmem
  | h :: rest, v, hok => by
    unfold serializeParentHashes at hok
    obtain ⟨bytes, hd, hok2⟩ := isOkB_of_bind_ok _ _ _ hok
    obtain ⟨tail, ht, _⟩ := isOkB_of_bind_ok _ _ _ hok2
    intro hs hmem
    rcases List.mem_cons.mp hmem with rfl | hmem'
    · rw [decode32] at hd ⊢; rw [hd]; rfl
    · exact serializeParentHashes_ok rest tail ht hs hmem'

theorem serializeParents_ok :
    ∀ (parents : List (List (List Nat))) (v : List Nat),
      serializeParents parents = .ok v →
      ∀ level ∈ parents, ∀ hs ∈ level, isOkB (decode32 hs) = true
  | [], _, _ => by intro level hmem; simp at hmem
  | level :: rest, v, hok => by
    unfold serializeParents at hok
    obtain ⟨hs0, hhs, hok2⟩ := isOkB_of_bind_ok _ _ _ hok
    obtain ⟨tail, ht, _⟩ := isOkB_of_bind_ok _ _ _ hok2
    intro l hmem
    rcases List.mem_cons.mp hmem with rfl | hmem'
    · exact serializeParentHashes_ok l hs0 hhs
    · exact serializeParents_ok rest tail ht l hmem'

theorem serializeHeader_ok_fields (header : RpcBlockHeader) (fp : Bool)
    (h : isOkB (serializeHeader header fp) = true) :
    (∀ level ∈ header.parents, ∀ hs ∈ level, isOkB (decode32 hs) = true) ∧
      isOkB (decode32 header.hash_merkle_root) = true ∧
      isOkB (decode32 header.accepted_id_merkle_root) = true ∧
      isOkB (decode32 header.utxo_commitment) = true ∧
      isOkB (serializeBlueWork header.blue_work) = true ∧
      isOkB (decode32 header.pruning_point) = true := by
  cases hser : serializeHeader header fp with
  | error e => rw [hser] at h; cases h
  | ok s =>
    clear h
    simp only [serializeHeader] at hser
    by_cases hv : 2 ^ 16 ≤ header.version
    · rw [if_pos hv] at hser; cases hser
    · rw [if_neg hv] at hser
      obtain ⟨pb, hp, hser⟩ := isOkB_of_bind_ok _ _ _ hser
      obtain ⟨hmr, h1, hser⟩ := isOkB_of_bind_ok _ _ _ hser
      obtain ⟨aimr, h2, hser⟩ := isOkB_of_bind_ok _ _ _ hser
      obtain ⟨utxo, h3, hser⟩ := isOkB_of_bind_ok _ _ _ hser
      obtain ⟨bw, h4, hser⟩ := isOkB_of_bind_ok _ _ _ hser
      obtain ⟨pp, h5, _⟩ := isOkB_of_bind_ok _ _ _ hser
      exact ⟨serializeParents_ok _ _ hp, by rw [h1]; rfl, by rw [h2]; rfl,
        by rw [h3]; rfl, by rw [h4]; rfl, by rw [h5]; rfl⟩

theorem stateNew_ok_serialize (p : Prims) (id : Nat) (block : RpcBlock)
    (h : isOkB (State.new p id block) = true) :
    ∃ hd, block.header = some hd ∧ isOkB (serializeHeader hd true) = true := by
  cases hnew : State.new p id block with
  | error e => rw [hnew] at h; cases h
  | ok s =>
    clear h
    unfold State.new at hnew
    split at hnew
    · cases hnew
    · next hd heq =>
      refine ⟨hd, heq, ?_⟩
      split at hnew
      · cases hnew
      · next stream hs => rw [hs]; rfl

/-- C6: hex decoding rejects odd-length input with `OddLength`, rejects a
decoded-length mismatch with `InvalidStringLength`, and reports the first
invalid character together with its index; a successful header
serialization implies every hex field decoded successfully (no silent
truncation), and a successful `State::new` implies the whole header
serialization succeeded, so any such failure surfaces to its caller. -/
theorem c6_hex_errors_propagate :
    (∀ (data : List Nat) (outLen : Nat), data.length % 2 = 1 →
      decodeToSlice data outLen = .error .oddLength) ∧
    (∀ (data : List Nat) (outLen : Nat), data.length % 2 = 0 →
      data.length / 2 ≠ outLen →
      decodeToSlice data outLen = .error .invalidStringLength) ∧
    (∀ (data : List Nat) (outLen i c : Nat), data.length % 2 = 0 →
      data.length / 2 = outLen →
      (∀ j, j < i → ∀ d, data[j]? = some d → IsHexDigit d) →
      data[i]? = some c → ¬ IsHexDigit c →
      decodeToSlice data outLen = .error (.invalidHexCharacter c i)) ∧
    (∀ (header : RpcBlockHeader) (fp : Bool),
      isOkB (serializeHeader header fp) = true →
      (∀ level ∈ header.parents, ∀ hs ∈ level, isOkB (decode32 hs) = true) ∧
        isOkB (decode32 header.hash_merkle_root) = true ∧
        isOkB (decode32 header.accepted_id_merkle_root) = true ∧
        isOkB (decode32 header.utxo_commitment) = true ∧
        isOkB (serializeBlueWork header.blue_work) = true ∧
        isOkB (decode32 header.pruning_point) = true) ∧
    (∀ (p : Prims) (id : Nat) (block : RpcBlock),
      isOkB (State.new p id block) = true →
      ∃ hd, block.header = some hd ∧ isOkB (serializeHeader hd true) = true) := by
  refine ⟨?_, ?_, decodeToSlice_err_at, serializeHeader_ok_fields,
    stateNew_ok_serialize⟩
  · intro data outLen hodd
    unfold decodeToSlice
    rw [if_pos (by omega)]
  · intro data outLen heven hne
    unfold decodeToSlice
    rw [if_neg (by omega), if_pos hne]

/-- C6 (witness): the five parts evaluated at concrete inputs — an
odd-length string, a length mismatch, the invalid byte `'g'` (103) at
index 1, and the concrete sample header/block. -/
theorem c6_hex_errors_propagate_witness :
    decodeToSlice [48, 48, 48] 1 = .error .oddLength ∧
      decodeToSlice [48, 48] 5 = .error .invalidStringLength ∧
      decodeToSlice [48, 103] 1 = .error (.invalidHexCharacter 103 1) ∧
      (∀ level ∈ sampleHeader.parents, ∀ hs ∈ level, isOkB (decode32 hs) = true) ∧
      (∃ hd, ({ header := some sampleHeader } : RpcBlock).header = some hd ∧
        isOkB (serializeHeader hd true) = true) :=
  ⟨c6_hex_errors_propagate.1 [48, 48, 48] 1 (by decide),
    c6_hex_errors_propagate.2.1 [48, 48] 5 (by decide) (by decide),
    c6_hex_errors_propagate.2.2.1 [48, 103] 1 1 103 (by decide) (by decide)
      (by intro j hj d hd
          have hj0 : j = 0 := by omega
          subst hj0
          simp only [List.getElem?_cons_zero, Option.some.injEq] at hd
          subst hd
          decide)
      (by decide) (by decide),
    (c6_hex_errors_propagate.2.2.2.1 sampleHeader true (by decide)).1,
    c6_hex_errors_propagate.2.2.2.2 constPrims 0 { header := some sampleHeader }
      (by decide)⟩

/-! ## Field-order lemmas for C1 -/

theorem serializeParentHashes_eq_spec (level : List (List Nat)) :
    serializeParentHashes level = (level.mapM decode32).map List.flatten := by
  induction level with
  | nil => rfl
  | cons h rest ih =>
    simp only [serializeParentHashes, List.mapM_cons]
    cases hd : decode32 h with
    | error e => rfl
    | ok bytes =>
      rw [exceptBind_ok, ih]
      cases ht : rest.mapM decode32 with
      | error e => rfl
      | ok tails =>
        simp only [Except.map, exceptBind_ok]
        rfl

theorem specParentLevel_err (level : List (List Nat)) (e : SerializeError)
    (hm : level.mapM decode32 = .error e) : specParentLevel level = .error e := by
  unfold specParentLevel
  rw [hm, exceptBind_error]

theorem specParentLevel_ok (level : List (List Nat)) (hashes : List (List Nat))
    (hm : level.mapM decode32 = .ok hashes) :
    specParentLevel level = .ok (natToLe 8 level.length ++ hashes.flatten) := by
  unfold specParentLevel
  rw [hm, exceptBind_ok]

theorem serializeParents_eq_spec (parents : List (List (List Nat))) :
    serializeParents parents = specParents parents := by
  induction parents with
  | nil => rfl
  | cons level rest ih =>
    simp only [serializeParents, specParents, List.mapM_cons,
      serializeParentHashes_eq_spec]
    cases hm : level.mapM decode32 with
    | error e =>
      rw [specParentLevel_err level e hm]
      rfl
    | ok hashes =>
      rw [specParentLevel_ok level hashes hm]
      simp only [Except.map, exceptBind_ok]
      rw [ih]
      simp only [specParents]
      cases hr : rest.mapM specParentLevel with
      | error e => rfl
      | ok ls =>
        simp only [exceptBind_ok]
        simp [List.flatten_cons, List.append_assoc]

/-- C1 (counterexample): on the concrete sample header — whose compact bits
are nonzero — the byte stream the code emits differs from the stream the
claimed field order (timestamp, nonce, then bits) would produce, because the
code writes the bits between the timestamp and the nonce. -/
theorem c1_counterexample :
    serializeHeader sampleHeader true ≠ serializeHeaderClaimOrder sampleHeader true := by
  decide

/-- C1 (amended): `serialize_header` writes the header fields in exactly
this fixed order: version (2 bytes LE), parent-level count (8 bytes LE),
per level its parent-hash count (8 bytes LE) and each 32-byte parent hash,
hash-merkle-root, accepted-id-merkle-root and utxo-commitment (32 raw bytes
each), then timestamp (8 bytes LE), compact target bits (4 bytes LE), nonce
(8 bytes LE) — timestamp and nonce both forced to 0 when `for_pre_pow` is
true — then DAA score (8 bytes LE), blue score (8 bytes LE), the
length-prefixed blue work, and the 32-byte pruning point. -/
theorem c1_serialize_header_field_order (header : RpcBlockHeader)
    (forPrePow : Bool) :
    serializeHeader header forPrePow = serializeHeaderFieldOrder header forPrePow := by
  simp only [serializeHeader, serializeHeaderFieldOrder, serializeParents_eq_spec]

end Vecno
